import Mathlib

/-!
Verification of the `fel_simplex` revised-simplex package.

The Python source is shallowly embedded over exact rationals: the mpmath
arbitrary-precision backend is specified externally as exact arithmetic
(settable working decimal precision, exact add/sub/mul/div, dense matrix
multiply and inverse), so scalars become `ℚ`, `mpmath.matrix` values become
`List (List ℚ)` (row major) with column vectors as `List ℚ`, and the
process-wide precision `mp.mp.dps` is threaded explicitly as a `ℕ` value.
Operations that raise Python exceptions (out-of-range indexing, division by
zero, singular-matrix inversion, tuple-unpacking mismatch) return `Option`.
-/

/-- Dot product of two rational vectors (mpmath row-by-column product). -/
def dotL (u v : List ℚ) : ℚ :=
  ((u.zip v).map (fun p => p.1 * p.2)).sum

/-- Matrix-vector product `M * v` (mpmath `matrix * column`). -/
def matVecMul (M : List (List ℚ)) (v : List ℚ) : List ℚ :=
  M.map (fun row => dotL row v)

/-- Entrywise negation of a vector: `-1 * v` on an mpmath column. -/
def negVec (v : List ℚ) : List ℚ :=
  v.map (fun x => -x)

/-- Entrywise negation of a matrix: `-1 * M` on an mpmath matrix. -/
def negMat (M : List (List ℚ)) : List (List ℚ) :=
  M.map negVec

/-- Entry `M[i, j]` of a row-major matrix (in-range access in the source). -/
def entryAt (M : List (List ℚ)) (i j : ℕ) : ℚ :=
  (M.getD i []).getD j 0

/-- Effectful left-to-right map over a list that aborts at the first failing
element, modelling a Python loop that may raise on some element. -/
def optMapList {α β : Type} (f : α → Option β) : List α → Option (List β)
  | [] => some []
  | a :: as =>
    match f a, optMapList f as with
    | some b, some bs => some (b :: bs)
    | _, _ => none

/-- First row index `r ≥ cIdx` whose entry in column `cIdx` is nonzero
(the pivot search of exact Gaussian elimination; mpmath's `B**-1` uses LU
with pivoting, which over exact arithmetic yields the same inverse and
fails on exactly the singular matrices). -/
def findPivotRow (rows : List (List ℚ)) (cIdx : ℕ) : Option ℕ :=
  (List.range rows.length).find? (fun r =>
    decide (cIdx ≤ r) && decide ((rows.getD r []).getD cIdx 0 ≠ 0))

/-- Swap rows `i` and `j` of a matrix. -/
def swapRows (rows : List (List ℚ)) (i j : ℕ) : List (List ℚ) :=
  (List.range rows.length).map (fun k =>
    if k = i then rows.getD j []
    else if k = j then rows.getD i []
    else rows.getD k [])

/-- One Gauss-Jordan pivot on column `cIdx`: find a pivot row, swap it into
place, scale it to a unit pivot and eliminate the column elsewhere.  Returns
`none` when no pivot exists (singular matrix). -/
def elimStep (rows : List (List ℚ)) (cIdx : ℕ) : Option (List (List ℚ)) :=
  match findPivotRow rows cIdx with
  | none => none
  | some r =>
    let rows1 := swapRows rows cIdx r
    let prow := rows1.getD cIdx []
    let p := prow.getD cIdx 0
    let scaled := prow.map (fun v => v / p)
    some ((List.range rows1.length).map (fun i =>
      if i = cIdx then scaled
      else
        let ri := rows1.getD i []
        let factor := ri.getD cIdx 0
        (List.range ri.length).map (fun k => ri.getD k 0 - factor * scaled.getD k 0)))

/-- Run Gauss-Jordan pivots over a list of column indices. -/
def gaussAll : List ℕ → List (List ℚ) → Option (List (List ℚ))
  | [], rows => some rows
  | cIdx :: rest, rows =>
    match elimStep rows cIdx with
    | none => none
    | some rows2 => gaussAll rest rows2

/-- Exact matrix inverse, modelling mpmath's `B**-1`: `none` exactly when the
matrix is singular (mpmath raises `ZeroDivisionError` there). -/
def matInverse (B : List (List ℚ)) : Option (List (List ℚ)) :=
  let nn := B.length
  let aug := (List.range nn).map (fun i =>
    B.getD i [] ++ (List.range nn).map (fun k => if k = i then (1 : ℚ) else 0))
  match gaussAll (List.range nn) aug with
  | none => none
  | some rows => some (rows.map (fun row => row.drop nn))

/-- Solver state of `RevisedSimplex` after `__init__` (`revised_simplex.py`):
the original data, the split system, the slack-augmented system and the
basis bookkeeping. -/
structure Simplex where
  original_A : List (List ℚ)
  b : List ℚ
  original_c : List ℚ
  m : ℕ
  n : ℕ
  A : List (List ℚ)
  c : List ℚ
  augmented_matrix : List (List ℚ)
  new_c : List ℚ
  basis : List ℕ
  nonbasis : List ℕ
  len_basis : ℕ
  len_nonbasis : ℕ
deriving DecidableEq

instance : Inhabited Simplex :=
  ⟨{ original_A := [], b := [], original_c := [], m := 0, n := 0, A := [], c := [],
     augmented_matrix := [], new_c := [], basis := [], nonbasis := [],
     len_basis := 0, len_nonbasis := 0 }⟩

/-- `RevisedSimplex.transform_unrestricted`: split `x = x⁺ - x⁻`, doubling the
columns; column `j` is copied and column `j + n` is its negation, likewise for
the cost vector.  The read `original_c[j, 0]` raises `IndexError` when `c` has
fewer than `n` entries, hence the `Option`. -/
def transform_unrestricted (A : List (List ℚ)) (c : List ℚ) (n : ℕ) :
    Option (List (List ℚ) × List ℚ) :=
  match optMapList (fun j => c.get? j) (List.range n) with
  | none => none
  | some cvals =>
    some (A.map (fun row =>
            (List.range n).map (fun j => row.getD j 0)
              ++ (List.range n).map (fun j => -(row.getD j 0))),
          cvals ++ cvals.map (fun x => -x))

/-- `RevisedSimplex.add_slack_variables`: append an `m × m` identity block to
the split matrix and extend the cost vector with zeros for the slacks. -/
def add_slack_variables (Asplit : List (List ℚ)) (csplit : List ℚ) :
    List (List ℚ) × List ℚ :=
  ((List.range Asplit.length).map (fun i =>
      Asplit.getD i [] ++ (List.range Asplit.length).map (fun k => if k = i then (1 : ℚ) else 0)),
   csplit ++ List.replicate Asplit.length 0)

/-- `RevisedSimplex.__init__(A, b, c, precision)`.  It stores the data, sets
the process-wide mpmath precision `mp.mp.dps = precision` (returned as the
second component; `dps` is the incoming process-wide value), splits the
variables, augments with slacks and initializes the basis to the slack
columns.  No dimension validation is performed; the only failure is the
`IndexError` inside `transform_unrestricted`. -/
def RevisedSimplex_init (A : List (List ℚ)) (b c : List ℚ) (precision dps : ℕ) :
    Option Simplex × ℕ :=
  let m := A.length
  let n := (A.getD 0 []).length
  match transform_unrestricted A c n with
  | none => (none, precision)
  | some (Asplit, csplit) =>
    let aug_newc := add_slack_variables Asplit csplit
    (some { original_A := A, b := b, original_c := c, m := m, n := n,
            A := Asplit, c := csplit,
            augmented_matrix := aug_newc.1, new_c := aug_newc.2,
            basis := (List.range m).map (fun i => 2 * n + i),
            nonbasis := List.range (2 * n),
            len_basis := m, len_nonbasis := 2 * n }, precision)

/-- The state `RevisedSimplex.__init__` builds when it completes normally
(used to state construction facts without an existential). -/
def initRecord (A : List (List ℚ)) (b c : List ℚ) : Simplex :=
  let m := A.length
  let n := (A.getD 0 []).length
  let cvals := (List.range n).map (fun j => c.getD j 0)
  let Asplit := A.map (fun row =>
    (List.range n).map (fun j => row.getD j 0)
      ++ (List.range n).map (fun j => -(row.getD j 0)))
  let csplit := cvals ++ cvals.map (fun x => -x)
  let aug_newc := add_slack_variables Asplit csplit
  { original_A := A, b := b, original_c := c, m := m, n := n,
    A := Asplit, c := csplit,
    augmented_matrix := aug_newc.1, new_c := aug_newc.2,
    basis := (List.range m).map (fun i => 2 * n + i),
    nonbasis := List.range (2 * n),
    len_basis := m, len_nonbasis := 2 * n }

/-- The successfully constructed solver state (junk default if construction
raised). -/
def initState (A : List (List ℚ)) (b c : List ℚ) (precision dps : ℕ) : Simplex :=
  ((RevisedSimplex_init A b c precision dps).1).getD default

/-- `RevisedSimplex.get_basis_inverse`: gather the basis columns of the
augmented matrix into `B` and invert it. -/
def get_basis_inverse (s : Simplex) : Option (List (List ℚ)) :=
  matInverse ((List.range s.len_basis).map (fun i =>
    s.basis.map (fun basis_col => entryAt s.augmented_matrix i basis_col)))

/-- `RevisedSimplex.compute_reduced_costs`: `y = (c_Bᵀ B⁻¹)ᵀ` and
`r_j = c_j - yᵀ a_j` for each nonbasic column `j`, returned as
`(index, reduced cost)` pairs in nonbasis order. -/
def compute_reduced_costs (s : Simplex) (B_inv : List (List ℚ)) : List (ℕ × ℚ) :=
  let c_B := s.basis.map (fun basis_col => s.new_c.getD basis_col 0)
  let y_T := (List.range s.len_basis).map (fun j =>
    dotL c_B (B_inv.map (fun row => row.getD j 0)))
  s.nonbasis.map (fun n_basis_col =>
    (n_basis_col,
     s.new_c.getD n_basis_col 0
       - dotL y_T (s.augmented_matrix.map (fun row => row.getD n_basis_col 0))))

/-- `RevisedSimplex.get_entering_variable`: Dantzig's rule.  The running
minimum starts at `mp.inf` (modelled by `none`) with entering variable `None`;
each pair strictly below the current minimum replaces it, so the first
occurrence of the minimum wins. -/
def get_entering_variable (reduced_costs : List (ℕ × ℚ)) : Option ℕ × Option ℚ :=
  reduced_costs.foldl (fun acc p =>
    match acc.2 with
    | none => (some p.1, some p.2)
    | some mrc => if p.2 < mrc then (some p.1, some p.2) else acc)
    (none, none)

/-- The direction `d = B⁻¹ A_enter` computed inside
`RevisedSimplex.get_leaving_variable`. -/
def direction (s : Simplex) (B_inv : List (List ℚ)) (entering_var : ℕ) : List ℚ :=
  matVecMul B_inv (s.augmented_matrix.map (fun row => row.getD entering_var 0))

/-- The current basic values `b̄ = B⁻¹ b` computed inside
`RevisedSimplex.get_leaving_variable`. -/
def basic_values (s : Simplex) (B_inv : List (List ℚ)) : List ℚ :=
  matVecMul B_inv s.b

/-- The contribution of basic row `i` to the `ratios` list of
`RevisedSimplex.get_leaving_variable`: the pair `(basis[i], b̄_i / d_i)` when
`d_i > 0`, nothing otherwise. -/
def ratio_entry (s : Simplex) (B_inv : List (List ℚ)) (entering_var i : ℕ) :
    Option (ℕ × ℚ) :=
  if 0 < (direction s B_inv entering_var).getD i 0 then
    some (s.basis.getD i 0,
          (basic_values s B_inv).getD i 0 / (direction s B_inv entering_var).getD i 0)
  else none

/-- The `ratios` list of `RevisedSimplex.get_leaving_variable`: for each basic
row `i` with `d_i > 0`, the pair `(basis[i], b̄_i / d_i)`, in row order. -/
def ratios_list (s : Simplex) (B_inv : List (List ℚ)) (entering_var : ℕ) :
    List (ℕ × ℚ) :=
  (List.range s.len_basis).filterMap (ratio_entry s B_inv entering_var)

/-- Python's `min(ratios, key=lambda x: x[1])` on a nonempty list: fold that
keeps the accumulator unless a strictly smaller key appears, hence returns the
first-encountered minimum. -/
def py_min_by_snd (x : ℕ × ℚ) (xs : List (ℕ × ℚ)) : ℕ × ℚ :=
  xs.foldl (fun acc y => if y.2 < acc.2 then y else acc) x

/-- `RevisedSimplex.get_leaving_variable`: minimum-ratio test.  `none` models
the Python `(None, None)` returned when no ratio exists. -/
def get_leaving_variable (s : Simplex) (B_inv : List (List ℚ)) (entering_var : ℕ) :
    Option (ℕ × ℚ) :=
  match ratios_list s B_inv entering_var with
  | [] => none
  | x :: xs => some (py_min_by_snd x xs)

/-- `replaceFirst l oldv newv` overwrites the first occurrence of `oldv` with
`newv`, modelling `l[l.index(oldv)] = newv`. -/
def replaceFirst : List ℕ → ℕ → ℕ → List ℕ
  | [], _, _ => []
  | x :: xs, oldv, newv => if x = oldv then newv :: xs else x :: replaceFirst xs oldv newv

/-- `RevisedSimplex.update_basis` on the two index lists:
`basis[basis.index(leaving)] = entering; nonbasis.remove(entering);
nonbasis.append(leaving)` (Python `remove` drops the first occurrence). -/
def update_basis (basis nonbasis : List ℕ) (entering_var leaving_var : ℕ) :
    List ℕ × List ℕ :=
  (replaceFirst basis leaving_var entering_var,
   nonbasis.erase entering_var ++ [leaving_var])

/-- `RevisedSimplex.update_basis` as a state transformer: the sole mutation of
solver state performed per loop pass. -/
def update_state (s : Simplex) (entering_var leaving_var : ℕ) : Simplex :=
  { s with basis := (update_basis s.basis s.nonbasis entering_var leaving_var).1,
           nonbasis := (update_basis s.basis s.nonbasis entering_var leaving_var).2 }

/-- `RevisedSimplex.get_solution`: the full-length vector with `x[basis[i]] =
(B⁻¹b)_i` and zeros elsewhere. -/
def get_solution (s : Simplex) (B_inv : List (List ℚ)) : List ℚ :=
  let b_star := matVecMul B_inv s.b
  (s.basis.zip b_star).foldl (fun x p => x.set p.1 p.2)
    (List.replicate s.new_c.length 0)

/-- `RevisedSimplex.get_original_solution`: fold the split variables back
(`x_j = x_j⁺ - x_j⁻`) and return them with the original cost vector
`new_c[:original_A.cols]`. -/
def get_original_solution (s : Simplex) (transformed_solution : List ℚ) :
    List ℚ × List ℚ :=
  let ncols := (s.original_A.getD 0 []).length
  ((List.range ncols).map (fun i =>
      transformed_solution.getD i 0 - transformed_solution.getD (ncols + i) 0),
   (List.range ncols).map (fun i => s.new_c.getD i 0))

/-- Result of `RevisedSimplex.solve`, one constructor per `return` statement:
`optimal x obj iteration` for `return x, (c.T * x)[0], iteration, "Optimal"`;
`unbounded` for `return None, None, "Unbounded"`; and `maxIterationsReached`
for `return None, None, "Max iterations reached"`.  The two non-optimal
returns carry no solution, no objective value and no iteration count. -/
inductive SolveResult where
  | optimal (x : List ℚ) (obj : ℚ) (iterations : ℕ)
  | unbounded
  | maxIterationsReached
deriving DecidableEq

/-- Number of components of the Python tuple literally returned by
`RevisedSimplex.solve` for each outcome. -/
def returnedTupleLength : SolveResult → ℕ
  | .optimal _ _ _ => 4
  | .unbounded => 3
  | .maxIterationsReached => 3

/-- The optimality tolerance of `RevisedSimplex.solve`:
`mp.mpf(f'1e-{int(mp.mp.dps * 0.5)}')`, i.e. `10^(-⌊dps/2⌋)` at the
process-wide precision current when `solve` runs. -/
def tolerance (dps : ℕ) : ℚ :=
  1 / 10 ^ (dps / 2)

/-- The optimality test `min_reduced_cost >= -tolerance`, where a `none`
minimum is `mp.inf` (empty reduced-cost list) and compares greater. -/
def isOptimalStop (dps : ℕ) : Option ℚ → Bool
  | none => true
  | some mrc => decide (-(tolerance dps) ≤ mrc)

/-- The `while iteration < max_iterations` loop of `RevisedSimplex.solve`,
with `fuel = max_iterations - iteration` remaining passes.  A `none` result
models an uncaught exception from a singular basis inversion. -/
def solveLoop (dps : ℕ) : ℕ → Simplex → ℕ → Option SolveResult
  | 0, _, _ => some SolveResult.maxIterationsReached
  | fuel + 1, s, iteration =>
    match get_basis_inverse s with
    | none => none
    | some B_inv =>
      let ev := get_entering_variable (compute_reduced_costs s B_inv)
      if isOptimalStop dps ev.2 then
        let sol := get_original_solution s (get_solution s B_inv)
        some (SolveResult.optimal sol.1 (dotL sol.2 sol.1) iteration)
      else
        match ev.1 with
        | none => none
        | some entering_var =>
          match get_leaving_variable s B_inv entering_var with
          | none => some SolveResult.unbounded
          | some lv => solveLoop dps fuel (update_state s entering_var lv.1) (iteration + 1)

/-- `RevisedSimplex.solve(max_iterations)` under the process-wide precision
`dps` current at the call. -/
def solve (s : Simplex) (dps : ℕ) (max_iterations : ℕ) : Option SolveResult :=
  solveLoop dps max_iterations s 0

/-- `SimplexProblemSetup.__init__(precision)` (`fel_utils.py`): sets the
process-wide `mp.mp.dps` to `precision` and stores `self.prec = mp.mp.dps`;
returns the new process-wide value (which also is the stored `prec`). -/
def SimplexProblemSetup_init (precision dps : ℕ) : ℕ :=
  precision

/-- `SimplexProblemSetup.f_linspace(start, end, num)`:
`start + i * (end - start) / (num - 1)` for `i = 0 .. num-1`.  The division
raises `ZeroDivisionError` when `num = 1` (denominator `mpf(0)`), hence the
`Option`. -/
def f_linspace (start e : ℚ) (num : ℕ) : Option (List ℚ) :=
  optMapList (fun i =>
    if ((num : ℚ) - 1) = 0 then none
    else some (start + (i : ℚ) * (e - start) / ((num : ℚ) - 1)))
    (List.range num)

/-- `SimplexProblemSetup.construct_matrix(n, points, omega_sup, omega_inf)`:
`2m × (n+2)` constraint matrix; upper rows `[ω_sup p, 1, p^1 .. p^n]`, lower
rows `[ω_inf p, -1, -p^1 .. -p^n]`. -/
def construct_matrix (n : ℕ) (points : List ℚ) (omega_sup omega_inf : ℚ → ℚ) :
    List (List ℚ) :=
  points.map (fun p =>
    omega_sup p :: (1 : ℚ) :: (List.range n).map (fun k => p ^ (k + 1)))
  ++ points.map (fun p =>
    omega_inf p :: (-1 : ℚ) :: (List.range n).map (fun k => -(p ^ (k + 1))))

/-- `SimplexProblemSetup.construct_vector_b(f, points)`: length `2m` with
`b_i = f(p_i)` and `b_{i+m} = -f(p_i)`. -/
def construct_vector_b (f : ℚ → ℚ) (points : List ℚ) : List ℚ :=
  points.map f ++ points.map (fun p => -(f p))

/-- `SimplexProblemSetup.construct_vector_c(n)`: `(n+2)`-vector `(1, 0, ..., 0)`. -/
def construct_vector_c (n : ℕ) : List ℚ :=
  1 :: List.replicate (n + 1) 0

/-- The right-hand side `b = -1 * setproblem.construct_vector_b(f, points)`
that `OptimalPolynomial.get_coefs` passes to the `RevisedSimplex`
constructor. -/
def get_coefs_rhs (f : ℚ → ℚ) (points : List ℚ) : List ℚ :=
  negVec (construct_vector_b f points)

/-- `OptimalPolynomial.get_coefs(f, degree, a, b, num, omega_sup, omega_inf)`
(`optimal_poly.py`).  `SimplexProblemSetup(self.prec)` sets the process-wide
precision to `precision` and `getPrec()` returns it, so the solver is built
and run at that precision.  The four-variable unpacking of `solver.solve()`
raises `ValueError` on the three-element non-optimal results, hence `none`
there; on the optimal result the coefficients are `solution[1:]` reversed. -/
def get_coefs (precision : ℕ) (f : ℚ → ℚ) (degree : ℕ) (a b : ℚ) (num : ℕ)
    (omega_sup omega_inf : ℚ → ℚ) : Option (List ℚ) :=
  match f_linspace a b num with
  | none => none
  | some points =>
    match RevisedSimplex_init (negMat (construct_matrix degree points omega_sup omega_inf))
        (get_coefs_rhs f points) (construct_vector_c degree) precision precision with
    | (none, _) => none
    | (some solver, dps) =>
      match solve solver dps 1000 with
      | none => none
      | some (SolveResult.optimal x _ _) => some ((x.drop 1).reverse)
      | some _ => none

/-- The concrete LP of spec scenario 1: `A = [[1,-1],[1,1]]`, `b = [2,6]`,
`c = [-2,-1]`, constructed at the default precision 50. -/
def exampleState : Simplex :=
  initState [[1, -1], [1, 1]] [2, 6] [-2, -1] 50 0

/-- A one-constraint unbounded LP: minimize `-x` subject to `-x ≤ 1`. -/
def unboundedState : Simplex :=
  initState [[-1]] [1] [-1] 50 0

/-- The LP `minimize -(10^-10)·x subject to x ≤ 1`, whose first reduced cost
`-(10^-10)` lies between the optimality tolerances of precisions 50 and 4. -/
def precisionState : Simplex :=
  initState [[1]] [1] [-(1 / 10 ^ 10)] 50 0

/-- The solver state `get_coefs` builds for `f = 1`, degree 0, interval
`[0, 1]`, 2 sample points and zero weight functions (the weights of
`src/main.py`); the error-bound column is then identically zero and the LP is
unbounded. -/
def pipelineState : Simplex :=
  initState (negMat (construct_matrix 0 [0, 1] (fun _ => 0) (fun _ => 0)))
    (get_coefs_rhs (fun _ => 1) [0, 1]) (construct_vector_c 0) 15 15

/-- Invariant of the basis/nonbasis partition: sizes `m` and `2n`, no
duplicates, disjointness, and the two lists exactly covering the column
indices `0 .. 2n + m - 1`. -/
def BasisInvariant (mm tn : ℕ) (basis nonbasis : List ℕ) : Prop :=
  basis.length = mm ∧ nonbasis.length = tn ∧ basis.Nodup ∧ nonbasis.Nodup ∧
  (∀ x ∈ basis, x ∉ nonbasis) ∧
  (∀ x ∈ basis, x < tn + mm) ∧ (∀ x ∈ nonbasis, x < tn + mm) ∧
  (∀ x < tn + mm, x ∈ basis ∨ x ∈ nonbasis)

instance (mm tn : ℕ) (basis nonbasis : List ℕ) :
    Decidable (BasisInvariant mm tn basis nonbasis) := by
  unfold BasisInvariant
  infer_instance

/-! ### List access helper lemmas -/

theorem getD_lt {α : Type} (l : List α) (d : α) (i : ℕ) (h : i < l.length) :
    l.getD i d = l[i] := by
  rw [List.getD_eq_getElem?_getD, List.getElem?_eq_getElem h]
  rfl

theorem getD_mem_self {α : Type} (l : List α) (d : α) (i : ℕ) (h : i < l.length) :
    l.getD i d ∈ l := by
  rw [getD_lt l d i h]
  exact List.getElem_mem h

theorem getD_map_lt {α β : Type} (l : List α) (f : α → β) (d : β) (d' : α) (i : ℕ)
    (h : i < l.length) : (l.map f).getD i d = f (l.getD i d') := by
  rw [getD_lt _ _ _ (by simpa using h), getD_lt _ _ _ h, List.getElem_map]

theorem getD_range_lt (n i d : ℕ) (h : i < n) : (List.range n).getD i d = i := by
  rw [getD_lt _ _ _ (by simpa using h), List.getElem_range]

theorem getD_replicate_lt {α : Type} (a d : α) (n i : ℕ) (h : i < n) :
    (List.replicate n a).getD i d = a := by
  rw [getD_lt _ _ _ (by simpa using h), List.getElem_replicate]

theorem optMapList_eq_some_of {α β : Type} (f : α → Option β) (g : α → β) :
    ∀ l : List α, (∀ a ∈ l, f a = some (g a)) → optMapList f l = some (l.map g) := by
  intro l
  induction l with
  | nil => intro _; rfl
  | cons a as ih =>
    intro h
    have ha := h a (List.mem_cons_self a as)
    have has := ih (fun x hx => h x (List.mem_cons_of_mem a hx))
    simp only [optMapList, ha, has, List.map_cons]

theorem optMapList_eq_none_of_mem {α β : Type} (f : α → Option β) {a : α} :
    ∀ l : List α, a ∈ l → f a = none → optMapList f l = none := by
  intro l
  induction l with
  | nil => intro h; cases h
  | cons b bs ih =>
    intro hmem hfa
    rcases List.mem_cons.mp hmem with rfl | hmem'
    · simp only [optMapList, hfa]
    · have := ih hmem' hfa
      simp only [optMapList, this]
      cases f b <;> rfl

/-! ### Construction lemmas -/

theorem transform_unrestricted_eq_some (A : List (List ℚ)) (c : List ℚ) (n : ℕ)
    (h : n ≤ c.length) :
    transform_unrestricted A c n =
      some (A.map (fun row =>
              (List.range n).map (fun j => row.getD j 0)
                ++ (List.range n).map (fun j => -(row.getD j 0))),
            (List.range n).map (fun j => c.getD j 0)
              ++ ((List.range n).map (fun j => c.getD j 0)).map (fun x => -x)) := by
  have hvals : ∀ j ∈ List.range n, c.get? j = some ((fun j => c.getD j 0) j) := by
    intro j hj
    have hj' : j < c.length := lt_of_lt_of_le (List.mem_range.mp hj) h
    show c.get? j = some (c.getD j 0)
    rw [getD_lt c 0 j hj', List.get?_eq_getElem?, List.getElem?_eq_getElem hj']
  unfold transform_unrestricted
  rw [optMapList_eq_some_of _ _ _ hvals]

theorem transform_unrestricted_eq_none (A : List (List ℚ)) (c : List ℚ) (n : ℕ)
    (h : c.length < n) : transform_unrestricted A c n = none := by
  have hmem : c.length ∈ List.range n := List.mem_range.mpr h
  have hnone : c.get? c.length = none := by
    rw [List.get?_eq_getElem?]
    exact List.getElem?_eq_none (le_refl _)
  unfold transform_unrestricted
  rw [optMapList_eq_none_of_mem _ _ hmem hnone]

theorem RevisedSimplex_init_eq_some (A : List (List ℚ)) (b c : List ℚ) (p g : ℕ)
    (h : (A.getD 0 []).length ≤ c.length) :
    RevisedSimplex_init A b c p g = (some (initRecord A b c), p) := by
  simp only [RevisedSimplex_init, initRecord, transform_unrestricted_eq_some A c _ h]

theorem RevisedSimplex_init_eq_none (A : List (List ℚ)) (b c : List ℚ) (p g : ℕ)
    (h : c.length < (A.getD 0 []).length) :
    RevisedSimplex_init A b c p g = (none, p) := by
  simp only [RevisedSimplex_init, transform_unrestricted_eq_none A c _ h]

theorem RevisedSimplex_init_snd (A : List (List ℚ)) (b c : List ℚ) (p g : ℕ) :
    (RevisedSimplex_init A b c p g).2 = p := by
  rcases htr : transform_unrestricted A c (A.getD 0 []).length with _ | ⟨As, cs⟩ <;>
    simp only [RevisedSimplex_init, htr]

/-! ### Lemmas about Python's first-minimum fold -/

theorem py_min_cons (x y : ℕ × ℚ) (ys : List (ℕ × ℚ)) :
    py_min_by_snd x (y :: ys) = py_min_by_snd (if y.2 < x.2 then y else x) ys := by
  simp [py_min_by_snd]

theorem py_min_le (xs : List (ℕ × ℚ)) : ∀ x : ℕ × ℚ,
    (py_min_by_snd x xs).2 ≤ x.2 ∧ ∀ y ∈ xs, (py_min_by_snd x xs).2 ≤ y.2 := by
  induction xs with
  | nil =>
    intro x
    refine ⟨le_refl _, ?_⟩
    intro y hy
    cases hy
  | cons y ys ih =>
    intro x
    obtain ⟨h1, h2⟩ := ih (if y.2 < x.2 then y else x)
    have hib : (if y.2 < x.2 then y else x).2 ≤ x.2 ∧ (if y.2 < x.2 then y else x).2 ≤ y.2 := by
      by_cases hc : y.2 < x.2
      · simp only [if_pos hc]
        exact ⟨le_of_lt hc, le_refl _⟩
      · simp only [if_neg hc]
        exact ⟨le_refl _, le_of_not_lt hc⟩
    rw [py_min_cons]
    refine ⟨le_trans h1 hib.1, ?_⟩
    intro z hz
    rcases List.mem_cons.mp hz with rfl | hz'
    · exact le_trans h1 hib.2
    · exact h2 z hz'

theorem py_min_first (xs : List (ℕ × ℚ)) : ∀ x : ℕ × ℚ,
    ∃ k, k < xs.length + 1 ∧ (x :: xs).getD k (0, 0) = py_min_by_snd x xs ∧
      ∀ j < k, (py_min_by_snd x xs).2 < ((x :: xs).getD j (0, 0)).2 := by
  induction xs with
  | nil =>
    intro x
    exact ⟨0, by omega, rfl, fun j hj => absurd hj (by omega)⟩
  | cons y ys ih =>
    intro x
    by_cases hc : y.2 < x.2
    · obtain ⟨k', hk', hget, hfirst⟩ := ih y
      have hstep : py_min_by_snd x (y :: ys) = py_min_by_snd y ys := by
        rw [py_min_cons, if_pos hc]
      refine ⟨k' + 1, by simpa using hk', ?_, ?_⟩
      · rw [hstep]
        simpa using hget
      · intro j hj
        rw [hstep]
        match j with
        | 0 =>
          have h1 := (py_min_le ys y).1
          simpa using lt_of_le_of_lt h1 hc
        | j' + 1 =>
          have := hfirst j' (by omega)
          simpa using this
    · obtain ⟨k', hk', hget, hfirst⟩ := ih x
      have hstep : py_min_by_snd x (y :: ys) = py_min_by_snd x ys := by
        rw [py_min_cons, if_neg hc]
      rcases Nat.eq_zero_or_pos k' with rfl | hp
      · refine ⟨0, by omega, ?_, fun j hj => absurd hj (by omega)⟩
        rw [hstep]
        simpa using hget
      · obtain ⟨k'', rfl⟩ : ∃ k'', k' = k'' + 1 := ⟨k' - 1, by omega⟩
        refine ⟨k'' + 2, by simp only [List.length_cons] at hk' ⊢; omega, ?_, ?_⟩
        · rw [hstep]
          simpa using hget
        · intro j hj
          rw [hstep]
          match j with
          | 0 =>
            have := hfirst 0 (by omega)
            simpa using this
          | 1 =>
            have h0 := hfirst 0 (by omega)
            have hxy : x.2 ≤ y.2 := le_of_not_lt hc
            simp only [List.getD_cons_zero] at h0
            simp only [List.getD_cons_succ, List.getD_cons_zero]
            linarith
          | j' + 2 =>
            have := hfirst (j' + 1) (by omega)
            simpa using this

/-- Positions in `filterMap f` over a strictly increasing index list: every
kept position comes from some index, and indices strictly before it land at
strictly earlier positions. -/
theorem filterMap_first_index (f : ℕ → Option (ℕ × ℚ)) :
    ∀ l : List ℕ, l.Pairwise (· < ·) → ∀ k, k < (l.filterMap f).length →
      ∃ i ∈ l, f i = some ((l.filterMap f).getD k (0, 0)) ∧
        ∀ i' ∈ l, i' < i → ∀ y, f i' = some y →
          ∃ j < k, (l.filterMap f).getD j (0, 0) = y := by
  intro l
  induction l with
  | nil =>
    intro _ k hk
    simp at hk
  | cons i0 l' ih =>
    intro hpw k hk
    have hpw' : l'.Pairwise (· < ·) := (List.pairwise_cons.mp hpw).2
    have hlt : ∀ i' ∈ l', i0 < i' := (List.pairwise_cons.mp hpw).1
    cases hf0 : f i0 with
    | none =>
      have hfm : (i0 :: l').filterMap f = l'.filterMap f := by
        rw [List.filterMap_cons, hf0]
      rw [hfm] at hk ⊢
      obtain ⟨i, hi, hfi, hprev⟩ := ih hpw' k hk
      refine ⟨i, List.mem_cons_of_mem _ hi, hfi, ?_⟩
      intro i' hi' hi'i y hy
      rcases List.mem_cons.mp hi' with rfl | hmem
      · rw [hf0] at hy
        cases hy
      · exact hprev i' hmem hi'i y hy
    | some y0 =>
      have hfm : (i0 :: l').filterMap f = y0 :: l'.filterMap f := by
        rw [List.filterMap_cons, hf0]
      rw [hfm] at hk ⊢
      match k with
      | 0 =>
        refine ⟨i0, List.mem_cons_self _ _, by simpa using hf0, ?_⟩
        intro i' hi' hi'i y hy
        rcases List.mem_cons.mp hi' with rfl | hmem
        · omega
        · exact absurd hi'i (by have := hlt i' hmem; omega)
      | k'' + 1 =>
        obtain ⟨i, hi, hfi, hprev⟩ := ih hpw' k'' (by simpa using hk)
        refine ⟨i, List.mem_cons_of_mem _ hi, by simpa using hfi, ?_⟩
        intro i' hi' hi'i y hy
        rcases List.mem_cons.mp hi' with rfl | hmem
        · rw [hf0] at hy
          injection hy with hy
          exact ⟨0, by omega, by simpa using hy⟩
        · obtain ⟨j, hj, hjeq⟩ := hprev i' hmem hi'i y hy
          exact ⟨j + 1, by omega, by simpa using hjeq⟩

/-! ### Lemmas about the basis update -/

theorem replaceFirst_length (a b : ℕ) : ∀ l : List ℕ,
    (replaceFirst l a b).length = l.length := by
  intro l
  induction l with
  | nil => rfl
  | cons x xs ih =>
    by_cases h : x = a <;> simp [replaceFirst, h, ih]

theorem mem_replaceFirst_iff {a b : ℕ} : ∀ {l : List ℕ}, l.Nodup → a ∈ l →
    ∀ x, (x ∈ replaceFirst l a b ↔ (x ∈ l ∧ x ≠ a) ∨ x = b) := by
  intro l
  induction l with
  | nil =>
    intro _ ha
    cases ha
  | cons x0 xs ih =>
    intro hnd ha x
    have hnd' : xs.Nodup := (List.nodup_cons.mp hnd).2
    have hx0 : x0 ∉ xs := (List.nodup_cons.mp hnd).1
    by_cases h0 : x0 = a
    · have hrw : replaceFirst (x0 :: xs) a b = b :: xs := by
        rw [replaceFirst, if_pos h0]
      subst h0
      rw [hrw]
      simp only [List.mem_cons]
      constructor
      · rintro (rfl | hx)
        · exact Or.inr rfl
        · exact Or.inl ⟨Or.inr hx, fun hcon => hx0 (hcon ▸ hx)⟩
      · rintro (⟨hmem, hne⟩ | rfl)
        · rcases hmem with rfl | hx
          · exact absurd rfl hne
          · exact Or.inr hx
        · exact Or.inl rfl
    · have ha' : a ∈ xs := by
        rcases List.mem_cons.mp ha with rfl | h
        · exact absurd rfl h0
        · exact h
      have hrw : replaceFirst (x0 :: xs) a b = x0 :: replaceFirst xs a b := by
        rw [replaceFirst, if_neg h0]
      rw [hrw]
      simp only [List.mem_cons, ih hnd' ha' x]
      constructor
      · rintro (rfl | (⟨hmem, hne⟩ | rfl))
        · exact Or.inl ⟨Or.inl rfl, h0⟩
        · exact Or.inl ⟨Or.inr hmem, hne⟩
        · exact Or.inr rfl
      · rintro (⟨hmem, hne⟩ | rfl)
        · rcases hmem with rfl | hx
          · exact Or.inl rfl
          · exact Or.inr (Or.inl ⟨hx, hne⟩)
        · exact Or.inr (Or.inr rfl)

theorem mem_of_mem_replaceFirst {a b x : ℕ} : ∀ {l : List ℕ},
    x ∈ replaceFirst l a b → x ∈ l ∨ x = b := by
  intro l
  induction l with
  | nil =>
    intro h
    cases h
  | cons x0 xs ih =>
    intro h
    by_cases h0 : x0 = a
    · rw [replaceFirst, if_pos h0] at h
      rcases List.mem_cons.mp h with rfl | hx
      · exact Or.inr rfl
      · exact Or.inl (List.mem_cons_of_mem _ hx)
    · rw [replaceFirst, if_neg h0] at h
      rcases List.mem_cons.mp h with rfl | hx
      · exact Or.inl (List.mem_cons_self _ _)
      · rcases ih hx with hmem | rfl
        · exact Or.inl (List.mem_cons_of_mem _ hmem)
        · exact Or.inr rfl

theorem replaceFirst_nodup {a b : ℕ} : ∀ {l : List ℕ}, l.Nodup → b ∉ l →
    (replaceFirst l a b).Nodup := by
  intro l
  induction l with
  | nil =>
    intro _ _
    exact List.nodup_nil
  | cons x0 xs ih =>
    intro hnd hb
    have hnd' : xs.Nodup := (List.nodup_cons.mp hnd).2
    have hx0 : x0 ∉ xs := (List.nodup_cons.mp hnd).1
    have hbx : b ∉ xs := fun h => hb (List.mem_cons_of_mem _ h)
    by_cases h0 : x0 = a
    · rw [replaceFirst, if_pos h0]
      exact List.nodup_cons.mpr ⟨hbx, hnd'⟩
    · rw [replaceFirst, if_neg h0]
      refine List.nodup_cons.mpr ⟨?_, ih hnd' hbx⟩
      intro hcon
      rcases mem_of_mem_replaceFirst hcon with hmem | rfl
      · exact hx0 hmem
      · exact hb (List.mem_cons_self _ _)

/-! ### Record projection lemmas for the constructed state -/

theorem initRecord_A (A : List (List ℚ)) (b c : List ℚ) :
    (initRecord A b c).A = A.map (fun row =>
      (List.range (A.getD 0 []).length).map (fun j => row.getD j 0)
        ++ (List.range (A.getD 0 []).length).map (fun j => -(row.getD j 0))) := rfl

theorem initRecord_c (A : List (List ℚ)) (b c : List ℚ) :
    (initRecord A b c).c =
      (List.range (A.getD 0 []).length).map (fun j => c.getD j 0)
        ++ ((List.range (A.getD 0 []).length).map (fun j => c.getD j 0)).map
            (fun x => -x) := rfl

theorem initRecord_aug (A : List (List ℚ)) (b c : List ℚ) :
    (initRecord A b c).augmented_matrix =
      (add_slack_variables (initRecord A b c).A (initRecord A b c).c).1 := rfl

theorem initRecord_newc (A : List (List ℚ)) (b c : List ℚ) :
    (initRecord A b c).new_c =
      (add_slack_variables (initRecord A b c).A (initRecord A b c).c).2 := rfl

theorem initRecord_basis (A : List (List ℚ)) (b c : List ℚ) :
    (initRecord A b c).basis =
      (List.range A.length).map (fun i => 2 * (A.getD 0 []).length + i) := rfl

theorem initRecord_nonbasis (A : List (List ℚ)) (b c : List ℚ) :
    (initRecord A b c).nonbasis = List.range (2 * (A.getD 0 []).length) := rfl

/-- The initial basis/nonbasis lists satisfy the partition invariant. -/
theorem initBasisInvariant (m n : ℕ) :
    BasisInvariant m (2 * n) ((List.range m).map (fun i => 2 * n + i))
      (List.range (2 * n)) := by
  refine ⟨by simp, by simp, ?_, List.nodup_range _, ?_, ?_, ?_, ?_⟩
  · exact List.Nodup.map (fun a b hab => by omega) (List.nodup_range m)
  · intro x hx hcon
    rcases List.mem_map.mp hx with ⟨i, hi, rfl⟩
    have := List.mem_range.mp hcon
    omega
  · intro x hx
    rcases List.mem_map.mp hx with ⟨i, hi, rfl⟩
    have := List.mem_range.mp hi
    omega
  · intro x hx
    have := List.mem_range.mp hx
    omega
  · intro x hx
    by_cases hlt : x < 2 * n
    · exact Or.inr (List.mem_range.mpr hlt)
    · exact Or.inl (List.mem_map.mpr ⟨x - 2 * n, List.mem_range.mpr (by omega), by omega⟩)

/-! ### Claim theorems -/

unseal Rat.add Rat.sub Rat.mul Rat.inv in
/-- Claim C1: on the LP `A = [[1,-1],[1,1]]`, `b = [2,6]`, `c = [-2,-1]`
(minimize `cᵀx` subject to `Ax ≤ b`), the solver constructed at the default
precision 50 terminates under the default iteration cap 1000 with status
Optimal, original-space solution `x = (4, 2)` and objective value `-10`
(after 2 pivots). -/
theorem claim_C1 :
    solve exampleState 50 1000 = some (SolveResult.optimal [4, 2] (-10) 2) := by
  decide

unseal Rat.add Rat.sub Rat.mul Rat.inv in
/-- Claim C2 (code bug): on non-optimal terminations `solve` returns the
3-tuple `(None, None, status)` — the status sits where its docstring puts the
iteration count and no fourth component exists — instead of the documented
4-tuple `(x, obj, iterations, status)`.  Shown on an unbounded LP
(minimize `-x` s.t. `-x ≤ 1`) and on an exhausted iteration cap
(`max_iterations = 0`). -/
theorem claim_C2 :
    solve unboundedState 50 1000 = some SolveResult.unbounded ∧
    solve unboundedState 50 0 = some SolveResult.maxIterationsReached ∧
    returnedTupleLength SolveResult.unbounded = 3 ∧
    returnedTupleLength SolveResult.maxIterationsReached = 3 ∧
    returnedTupleLength (SolveResult.optimal [4, 2] (-10) 2) = 4 := by
  exact ⟨by decide, by decide, rfl, rfl, rfl⟩

unseal Rat.add Rat.sub Rat.mul Rat.inv in
/-- Claim C9: constructing a `RevisedSimplex` or a `SimplexProblemSetup` with
precision `p` sets the process-wide decimal precision to `p`, and `solve`'s
optimality tolerance uses whatever process-wide precision is current at the
call: the state built at precision 50, solved after the process-wide value was
reset to 4 by a later construction, stops immediately (tolerance `10⁻²`
swallows the reduced cost `-10⁻¹⁰`), while solving it at precision 50
pivots. -/
theorem claim_C9 :
    (∀ (A : List (List ℚ)) (b c : List ℚ) (p g : ℕ),
      (RevisedSimplex_init A b c p g).2 = p) ∧
    (∀ p g : ℕ, SimplexProblemSetup_init p g = p) ∧
    solve precisionState (SimplexProblemSetup_init 4 50) 1000 =
      some (SolveResult.optimal [0] 0 0) ∧
    solve precisionState 50 1000 =
      some (SolveResult.optimal [1] (-(1 / 10 ^ 10)) 1) := by
  exact ⟨RevisedSimplex_init_snd, fun p g => rfl, by decide, by decide⟩

unseal Rat.add Rat.sub Rat.mul Rat.inv in
/-- Claim C8 counterexample: `f_linspace(start, end, 1)` fails (the source
divides by `num - 1 = 0`, a `ZeroDivisionError`), so the claim that the call
is defined for every `num ≥ 1` is false at `num = 1`. -/
theorem claim_C8_cx : f_linspace 0 1 1 = none := by
  decide

/-- Claim C8 (amended): for every `num ≥ 2`, `f_linspace` returns the `num`
points `start + i·(end − start)/(num − 1)`, `i = 0 .. num-1`; at `num = 1`
the call fails with a `ZeroDivisionError`. -/
theorem claim_C8 (start e : ℚ) (num : ℕ) (h : 2 ≤ num) :
    f_linspace start e num =
      some ((List.range num).map
        (fun i => start + (i : ℚ) * (e - start) / ((num : ℚ) - 1))) := by
  have h2 : (2 : ℚ) ≤ (num : ℚ) := by exact_mod_cast h
  have hden : ((num : ℚ) - 1) ≠ 0 := by
    intro hcon
    have : (num : ℚ) = 1 := by linarith
    linarith
  unfold f_linspace
  apply optMapList_eq_some_of
  intro i _
  rw [if_neg hden]

/-- Witness for claim C8 at `start = 0`, `end = 1`, `num = 3`. -/
theorem claim_C8_w :
    2 ≤ 3 ∧
    f_linspace 0 1 3 =
      some ((List.range 3).map
        (fun i => 0 + (i : ℚ) * (1 - 0) / ((3 : ℚ) - 1))) :=
  ⟨by norm_num, claim_C8 0 1 3 (by norm_num)⟩

unseal Rat.add Rat.sub Rat.mul Rat.inv in
/-- Claim C4 counterexample: `RevisedSimplex([[1]], [1, 2], [1])` has
`A.rows = 1 ≠ 2 = b.length`, yet construction completes normally — no
dimension validation exists and no `InvalidDimensions` error is raised. -/
theorem claim_C4_cx :
    ((RevisedSimplex_init [[1]] [1, 2] [1] 50 0).1).isSome = true ∧
    List.length [[(1 : ℚ)]] = 1 ∧ List.length [(1 : ℚ), 2] = 2 := by
  exact ⟨by decide, rfl, rfl⟩

/-- Claim C4 (amended): `RevisedSimplex.__init__` performs no dimension
validation and never raises `InvalidDimensions`: construction completes
normally whenever `c` has at least `A.cols` entries — in particular for every
mismatched `b` — and fails (an untyped `IndexError` from reading `c[j, 0]`)
exactly when `c` is shorter than `A.cols`. -/
theorem claim_C4 (A : List (List ℚ)) (b c : List ℚ) (p g : ℕ) :
    ((A.getD 0 []).length ≤ c.length →
      (RevisedSimplex_init A b c p g).1 = some (initRecord A b c)) ∧
    (c.length < (A.getD 0 []).length →
      (RevisedSimplex_init A b c p g).1 = none) := by
  constructor
  · intro h
    rw [RevisedSimplex_init_eq_some A b c p g h]
  · intro h
    rw [RevisedSimplex_init_eq_none A b c p g h]

/-- Witness for claim C4: a mismatched `b` (length 1 vs `A.rows = 1` is fine
here, `[5]`, with `c` long enough) constructs, and a too-short `c` fails. -/
theorem claim_C4_w :
    (RevisedSimplex_init [[1]] [5] [2] 50 0).1 = some (initRecord [[1]] [5] [2]) ∧
    (RevisedSimplex_init [[1, 2]] [5] [1] 50 0).1 = none :=
  ⟨(claim_C4 [[1]] [5] [2] 50 0).1 (by decide),
   (claim_C4 [[1, 2]] [5] [1] 50 0).2 (by decide)⟩

unseal Rat.add Rat.sub Rat.mul Rat.inv in
/-- Claim C3 counterexample: for the accepted input `f = 1`, interval `[0,1]`,
degree 0, 2 sample points (default unit weights), the right-hand side passed
to `RevisedSimplex` is `(-1, -1, 1, 1)`, whose first component is negative —
the vector is not componentwise nonnegative. -/
theorem claim_C3_cx :
    f_linspace 0 1 2 = some [0, 1] ∧
    get_coefs_rhs (fun _ => (1 : ℚ)) [0, 1] = [-1, -1, 1, 1] ∧
    (get_coefs_rhs (fun _ => (1 : ℚ)) [0, 1]).getD 0 0 < 0 := by
  exact ⟨by decide, by decide, by decide⟩

/-- Claim C3 (amended): the right-hand side `get_coefs` passes to the
`RevisedSimplex` constructor has entries `b_i = -f(point_i)` and
`b_{i+m} = f(point_i)`, so `b_{i+m} = -b_i`; it is componentwise nonnegative
exactly when `f` vanishes at every sample point, so in general the initial
slack basis is not feasible. -/
theorem claim_C3 (f : ℚ → ℚ) (points : List ℚ) (m : ℕ) (hm : points.length = m) :
    (get_coefs_rhs f points).length = 2 * m ∧
    (∀ i < m, (get_coefs_rhs f points).getD i 0 = -(f (points.getD i 0))) ∧
    (∀ i < m, (get_coefs_rhs f points).getD (m + i) 0 = f (points.getD i 0)) ∧
    (∀ i < m, (get_coefs_rhs f points).getD (m + i) 0 =
      -((get_coefs_rhs f points).getD i 0)) ∧
    ((∀ j < 2 * m, 0 ≤ (get_coefs_rhs f points).getD j 0) ↔
      ∀ i < m, f (points.getD i 0) = 0) := by
  have hrw : get_coefs_rhs f points =
      points.map (fun p => -(f p)) ++ points.map (fun p => f p) := by
    show (points.map f ++ points.map (fun p => -(f p))).map (fun x => -x) = _
    rw [List.map_append, List.map_map, List.map_map]
    congr 1
    simp [Function.comp]
  have hlen1 : (points.map (fun p => -(f p))).length = m := by simp [hm]
  have hlow : ∀ i < m, (get_coefs_rhs f points).getD i 0 = -(f (points.getD i 0)) := by
    intro i hi
    rw [hrw, List.getD_append _ _ _ i (by omega), getD_map_lt _ _ _ 0 i (by omega)]
  have hhigh : ∀ i < m, (get_coefs_rhs f points).getD (m + i) 0 = f (points.getD i 0) := by
    intro i hi
    rw [hrw, List.getD_append_right _ _ _ _ (by omega)]
    rw [hlen1]
    have : m + i - m = i := by omega
    rw [this, getD_map_lt _ _ _ 0 i (by omega)]
  refine ⟨by simp [hrw, hm]; ring, hlow, hhigh, ?_, ?_⟩
  · intro i hi
    rw [hlow i hi, hhigh i hi, neg_neg]
  · constructor
    · intro hall i hi
      have h1 := hall i (by omega)
      have h2 := hall (m + i) (by omega)
      rw [hlow i hi] at h1
      rw [hhigh i hi] at h2
      linarith
    · intro hzero j hj
      by_cases hjm : j < m
      · rw [hlow j hjm, hzero j hjm]
        simp
      · obtain ⟨i, rfl⟩ : ∃ i, j = m + i := ⟨j - m, by omega⟩
        have hi : i < m := by omega
        rw [hhigh i hi, hzero i hi]

/-- Witness for claim C3 at `f x = x + 1` and sample points `[0, 1]`. -/
theorem claim_C3_w :
    (get_coefs_rhs (fun x => x + 1) [0, 1]).length = 2 * 2 ∧
    (∀ i < 2, (get_coefs_rhs (fun x => x + 1) [0, 1]).getD i 0 =
      -((([0, 1] : List ℚ).getD i 0) + 1)) ∧
    (∀ i < 2, (get_coefs_rhs (fun x => x + 1) [0, 1]).getD (2 + i) 0 =
      (([0, 1] : List ℚ).getD i 0) + 1) ∧
    (∀ i < 2, (get_coefs_rhs (fun x => x + 1) [0, 1]).getD (2 + i) 0 =
      -((get_coefs_rhs (fun x => x + 1) [0, 1]).getD i 0)) ∧
    ((∀ j < 2 * 2, 0 ≤ (get_coefs_rhs (fun x => x + 1) [0, 1]).getD j 0) ↔
      ∀ i < 2, (([0, 1] : List ℚ).getD i 0) + 1 = 0) :=
  claim_C3 (fun x => x + 1) [0, 1] 2 rfl

/-- The `new_c` of the constructed state, unfolded. -/
theorem initRecord_newc_eq (A : List (List ℚ)) (b c : List ℚ) :
    (initRecord A b c).new_c =
      (initRecord A b c).c ++ List.replicate (initRecord A b c).A.length 0 := rfl

/-- The augmented matrix of the constructed state, unfolded. -/
theorem initRecord_aug_eq (A : List (List ℚ)) (b c : List ℚ) :
    (initRecord A b c).augmented_matrix =
      (List.range (initRecord A b c).A.length).map (fun i =>
        (initRecord A b c).A.getD i []
          ++ (List.range (initRecord A b c).A.length).map
              (fun k => if k = i then (1 : ℚ) else 0)) := rfl

/-- Claim C5: for an `m × n` input `(A, c)` (with `c` of length `n`), the
transformed system built at construction has the split matrix with `2n`
columns satisfying `column j = column j of A` and `column (j+n) = -column j`,
split costs with `c'_{j+n} = -c'_j`; the augmented matrix appends an `m × m`
identity block as the last `m` columns for `2n + m` columns total, with zero
costs on the slack entries; and the initial basis is exactly the `m` slack
indices `2n .. 2n+m-1` with the nonbasis the `2n` split indices. -/
theorem claim_C5 (A : List (List ℚ)) (b c : List ℚ) (p g m n : ℕ)
    (hm : A.length = m) (hn : (A.getD 0 []).length = n) (hc : c.length = n) :
    (RevisedSimplex_init A b c p g).1 = some (initRecord A b c) ∧
    (initRecord A b c).A.length = m ∧
    (∀ i < m, ((initRecord A b c).A.getD i []).length = 2 * n) ∧
    (∀ i < m, ∀ j < n,
      entryAt (initRecord A b c).A i j = entryAt A i j ∧
      entryAt (initRecord A b c).A i (j + n) = -(entryAt A i j)) ∧
    (initRecord A b c).c.length = 2 * n ∧
    (∀ j < n, (initRecord A b c).c.getD (j + n) 0 = -((initRecord A b c).c.getD j 0)) ∧
    (initRecord A b c).augmented_matrix.length = m ∧
    (∀ i < m, ((initRecord A b c).augmented_matrix.getD i []).length = 2 * n + m) ∧
    (∀ i < m, ∀ j < 2 * n,
      entryAt (initRecord A b c).augmented_matrix i j = entryAt (initRecord A b c).A i j) ∧
    (∀ i < m, ∀ k < m,
      entryAt (initRecord A b c).augmented_matrix i (2 * n + k) =
        if k = i then 1 else 0) ∧
    (initRecord A b c).new_c.length = 2 * n + m ∧
    (∀ k < m, (initRecord A b c).new_c.getD (2 * n + k) 0 = 0) ∧
    (initRecord A b c).basis = (List.range m).map (fun i => 2 * n + i) ∧
    (initRecord A b c).nonbasis = List.range (2 * n) := by
  have hAlen : (initRecord A b c).A.length = m := by
    rw [initRecord_A, List.length_map, hm]
  have hArow : ∀ i < m, (initRecord A b c).A.getD i [] =
      (List.range n).map (fun j => (A.getD i []).getD j 0)
        ++ (List.range n).map (fun j => -((A.getD i []).getD j 0)) := by
    intro i hi
    rw [initRecord_A, hn, getD_map_lt A _ [] [] i (by omega)]
  have hArowlen : ∀ i < m, ((initRecord A b c).A.getD i []).length = 2 * n := by
    intro i hi
    rw [hArow i hi]
    simp [two_mul]
  have hclen : (initRecord A b c).c.length = 2 * n := by
    rw [initRecord_c, hn]
    simp [two_mul]
  have hcsplit : ∀ j < n, (initRecord A b c).c.getD (j + n) 0 =
      -((initRecord A b c).c.getD j 0) := by
    intro j hj
    rw [initRecord_c, hn]
    rw [List.getD_append _ _ _ j (by simp <;> omega)]
    rw [List.getD_append_right _ _ _ _ (by simp <;> omega)]
    simp only [List.length_map, List.length_range]
    have hidx : j + n - n = j := by omega
    rw [hidx, getD_map_lt _ _ _ 0 j (by simp <;> omega)]
  have hauglen : (initRecord A b c).augmented_matrix.length = m := by
    rw [initRecord_aug_eq]
    simp [hAlen]
  have haugrow : ∀ i < m, (initRecord A b c).augmented_matrix.getD i [] =
      (initRecord A b c).A.getD i []
        ++ (List.range m).map (fun k => if k = i then (1 : ℚ) else 0) := by
    intro i hi
    rw [initRecord_aug_eq, hAlen]
    rw [getD_map_lt _ _ [] 0 i (by simp <;> omega), getD_range_lt m i 0 (by omega)]
  have haugrowlen : ∀ i < m, ((initRecord A b c).augmented_matrix.getD i []).length
      = 2 * n + m := by
    intro i hi
    rw [haugrow i hi, List.length_append, hArowlen i hi]
    simp
  have haugsplit : ∀ i < m, ∀ j < 2 * n,
      entryAt (initRecord A b c).augmented_matrix i j =
        entryAt (initRecord A b c).A i j := by
    intro i hi j hj
    show ((initRecord A b c).augmented_matrix.getD i []).getD j 0 =
      ((initRecord A b c).A.getD i []).getD j 0
    rw [haugrow i hi, List.getD_append _ _ _ j (by rw [hArowlen i hi]; omega)]
  have haugid : ∀ i < m, ∀ k < m,
      entryAt (initRecord A b c).augmented_matrix i (2 * n + k) =
        if k = i then 1 else 0 := by
    intro i hi k hk
    show ((initRecord A b c).augmented_matrix.getD i []).getD (2 * n + k) 0 = _
    rw [haugrow i hi, List.getD_append_right _ _ _ _ (by rw [hArowlen i hi]; omega)]
    rw [hArowlen i hi]
    have hidx : 2 * n + k - 2 * n = k := by omega
    rw [hidx, getD_map_lt _ _ _ 0 k (by simp <;> omega), getD_range_lt m k 0 (by omega)]
  have hnewclen : (initRecord A b c).new_c.length = 2 * n + m := by
    rw [initRecord_newc_eq, List.length_append, hclen, List.length_replicate, hAlen]
  have hslackc : ∀ k < m, (initRecord A b c).new_c.getD (2 * n + k) 0 = 0 := by
    intro k hk
    rw [initRecord_newc_eq, List.getD_append_right _ _ _ _ (by rw [hclen]; omega), hclen]
    have hidx : 2 * n + k - 2 * n = k := by omega
    rw [hidx, hAlen, getD_replicate_lt _ _ m k (by omega)]
  refine ⟨?_, hAlen, hArowlen, ?_, hclen, hcsplit, hauglen, haugrowlen, haugsplit,
    haugid, hnewclen, hslackc, ?_, ?_⟩
  · have h := RevisedSimplex_init_eq_some A b c p g (by omega)
    rw [h]
  · intro i hi j hj
    constructor
    · show ((initRecord A b c).A.getD i []).getD j 0 = (A.getD i []).getD j 0
      rw [hArow i hi, List.getD_append _ _ _ j (by simp <;> omega),
        getD_map_lt _ _ _ 0 j (by simp <;> omega), getD_range_lt n j 0 (by omega)]
    · show ((initRecord A b c).A.getD i []).getD (j + n) 0 = -((A.getD i []).getD j 0)
      rw [hArow i hi, List.getD_append_right _ _ _ _ (by simp <;> omega)]
      simp only [List.length_map, List.length_range]
      have hidx : j + n - n = j := by omega
      rw [hidx, getD_map_lt _ _ _ 0 j (by simp <;> omega), getD_range_lt n j 0 (by omega)]
  · rw [initRecord_basis, hm, hn]
  · rw [initRecord_nonbasis, hn]

/-- Witness for claim C5 on the scenario-1 data `A = [[1,-1],[1,1]]`,
`b = [2,6]`, `c = [-2,-1]` with `m = n = 2`. -/
theorem claim_C5_w :
    (RevisedSimplex_init [[1, -1], [1, 1]] [2, 6] [-2, -1] 50 0).1 =
      some (initRecord [[1, -1], [1, 1]] [2, 6] [-2, -1]) ∧
    (initRecord [[1, -1], [1, 1]] [2, 6] [-2, -1]).A.length = 2 ∧
    (∀ i < 2, ((initRecord [[1, -1], [1, 1]] [2, 6] [-2, -1]).A.getD i []).length = 2 * 2) ∧
    (∀ i < 2, ∀ j < 2,
      entryAt (initRecord [[1, -1], [1, 1]] [2, 6] [-2, -1]).A i j =
        entryAt [[1, -1], [1, 1]] i j ∧
      entryAt (initRecord [[1, -1], [1, 1]] [2, 6] [-2, -1]).A i (j + 2) =
        -(entryAt [[1, -1], [1, 1]] i j)) ∧
    (initRecord [[1, -1], [1, 1]] [2, 6] [-2, -1]).c.length = 2 * 2 ∧
    (∀ j < 2, (initRecord [[1, -1], [1, 1]] [2, 6] [-2, -1]).c.getD (j + 2) 0 =
      -((initRecord [[1, -1], [1, 1]] [2, 6] [-2, -1]).c.getD j 0)) ∧
    (initRecord [[1, -1], [1, 1]] [2, 6] [-2, -1]).augmented_matrix.length = 2 ∧
    (∀ i < 2, ((initRecord [[1, -1], [1, 1]] [2, 6] [-2, -1]).augmented_matrix.getD i []).length
      = 2 * 2 + 2) ∧
    (∀ i < 2, ∀ j < 2 * 2,
      entryAt (initRecord [[1, -1], [1, 1]] [2, 6] [-2, -1]).augmented_matrix i j =
        entryAt (initRecord [[1, -1], [1, 1]] [2, 6] [-2, -1]).A i j) ∧
    (∀ i < 2, ∀ k < 2,
      entryAt (initRecord [[1, -1], [1, 1]] [2, 6] [-2, -1]).augmented_matrix i (2 * 2 + k) =
        if k = i then 1 else 0) ∧
    (initRecord [[1, -1], [1, 1]] [2, 6] [-2, -1]).new_c.length = 2 * 2 + 2 ∧
    (∀ k < 2, (initRecord [[1, -1], [1, 1]] [2, 6] [-2, -1]).new_c.getD (2 * 2 + k) 0 = 0) ∧
    (initRecord [[1, -1], [1, 1]] [2, 6] [-2, -1]).basis =
      (List.range 2).map (fun i => 2 * 2 + i) ∧
    (initRecord [[1, -1], [1, 1]] [2, 6] [-2, -1]).nonbasis = List.range (2 * 2) :=
  claim_C5 [[1, -1], [1, 1]] [2, 6] [-2, -1] 50 0 2 2 rfl rfl rfl

/-- Claim C7: the basis/nonbasis partition is an invariant: the initial state
of any successful construction satisfies it, and each `update_basis` with an
entering index from `nonbasis` and a leaving index from `basis` swaps exactly
one index between the two lists (membership characterizations), preserving
sizes, duplicate-freeness, disjointness and coverage of all `2n + m` column
indices; `update_basis` mutates no other solver state. -/
theorem claim_C7 :
    (∀ (A : List (List ℚ)) (b c : List ℚ) (p g : ℕ) (s : Simplex),
      (RevisedSimplex_init A b c p g).1 = some s →
      BasisInvariant s.m (2 * s.n) s.basis s.nonbasis) ∧
    (∀ (mm tn : ℕ) (basis nonbasis : List ℕ) (entering_var leaving_var : ℕ),
      BasisInvariant mm tn basis nonbasis →
      entering_var ∈ nonbasis → leaving_var ∈ basis →
      BasisInvariant mm tn (update_basis basis nonbasis entering_var leaving_var).1
        (update_basis basis nonbasis entering_var leaving_var).2 ∧
      (∀ x, x ∈ (update_basis basis nonbasis entering_var leaving_var).1 ↔
        (x ∈ basis ∧ x ≠ leaving_var) ∨ x = entering_var) ∧
      (∀ x, x ∈ (update_basis basis nonbasis entering_var leaving_var).2 ↔
        (x ∈ nonbasis ∧ x ≠ entering_var) ∨ x = leaving_var)) ∧
    (∀ (s : Simplex) (entering_var leaving_var : ℕ),
      (update_state s entering_var leaving_var).original_A = s.original_A ∧
      (update_state s entering_var leaving_var).b = s.b ∧
      (update_state s entering_var leaving_var).original_c = s.original_c ∧
      (update_state s entering_var leaving_var).m = s.m ∧
      (update_state s entering_var leaving_var).n = s.n ∧
      (update_state s entering_var leaving_var).A = s.A ∧
      (update_state s entering_var leaving_var).c = s.c ∧
      (update_state s entering_var leaving_var).augmented_matrix = s.augmented_matrix ∧
      (update_state s entering_var leaving_var).new_c = s.new_c ∧
      (update_state s entering_var leaving_var).len_basis = s.len_basis ∧
      (update_state s entering_var leaving_var).len_nonbasis = s.len_nonbasis) := by
  refine ⟨?_, ?_, ?_⟩
  · intro A b c p g s h
    rcases htr : transform_unrestricted A c (A.getD 0 []).length with _ | ⟨As, cs⟩
    · simp only [RevisedSimplex_init, htr] at h
      cases h
    · simp only [RevisedSimplex_init, htr] at h
      obtain rfl : _ = s := Option.some.inj h
      exact initBasisInvariant A.length (A.getD 0 []).length
  · intro mm tn basis nonbasis enter leave hinv henter hleave
    obtain ⟨hbl, hnl, hbnd, hnnd, hdisj, hbub, hnub, hcov⟩ := hinv
    have henb : enter ∉ basis := fun hcon => hdisj enter hcon henter
    have hlnb : leave ∉ nonbasis := hdisj leave hleave
    have hne : enter ≠ leave := fun hcon => hlnb (hcon ▸ henter)
    have hbmem : ∀ x, x ∈ (update_basis basis nonbasis enter leave).1 ↔
        (x ∈ basis ∧ x ≠ leave) ∨ x = enter := mem_replaceFirst_iff hbnd hleave
    have hnmem : ∀ x, x ∈ (update_basis basis nonbasis enter leave).2 ↔
        (x ∈ nonbasis ∧ x ≠ enter) ∨ x = leave := by
      intro x
      show x ∈ nonbasis.erase enter ++ [leave] ↔ _
      rw [List.mem_append, List.mem_singleton, List.Nodup.mem_erase_iff hnnd]
      constructor
      · rintro (⟨hne', hmem⟩ | rfl)
        · exact Or.inl ⟨hmem, hne'⟩
        · exact Or.inr rfl
      · rintro (⟨hmem, hne'⟩ | rfl)
        · exact Or.inl ⟨hne', hmem⟩
        · exact Or.inr rfl
    refine ⟨⟨?_, ?_, ?_, ?_, ?_, ?_, ?_, ?_⟩, hbmem, hnmem⟩
    · show (replaceFirst basis leave enter).length = mm
      rw [replaceFirst_length]
      exact hbl
    · show (nonbasis.erase enter ++ [leave]).length = tn
      rw [List.length_append, List.length_erase_of_mem henter, hnl]
      have := List.length_pos_of_mem henter
      simp only [List.length_singleton]
      omega
    · exact replaceFirst_nodup hbnd henb
    · show (nonbasis.erase enter ++ [leave]).Nodup
      rw [List.nodup_append]
      refine ⟨List.Nodup.erase enter hnnd, List.nodup_singleton _, ?_⟩
      intro a ha hal
      rw [List.mem_singleton] at hal
      subst hal
      exact hlnb (List.mem_of_mem_erase ha)
    · intro x hx hx2
      rw [hbmem] at hx
      rw [hnmem] at hx2
      rcases hx with ⟨hxb, hxne⟩ | rfl
      · rcases hx2 with ⟨hxn, _⟩ | rfl
        · exact hdisj x hxb hxn
        · exact hxne rfl
      · rcases hx2 with ⟨hxn, hne2⟩ | rfl
        · exact hne2 rfl
        · exact hne rfl
    · intro x hx
      rw [hbmem] at hx
      rcases hx with ⟨hxb, _⟩ | rfl
      · exact hbub x hxb
      · exact hnub _ henter
    · intro x hx
      rw [hnmem] at hx
      rcases hx with ⟨hxn, _⟩ | rfl
      · exact hnub x hxn
      · exact hbub _ hleave
    · intro x hxlt
      rcases hcov x hxlt with hxb | hxn
      · by_cases hxl : x = leave
        · exact Or.inr ((hnmem x).mpr (Or.inr hxl))
        · exact Or.inl ((hbmem x).mpr (Or.inl ⟨hxb, hxl⟩))
      · by_cases hxe : x = enter
        · exact Or.inl ((hbmem x).mpr (Or.inr hxe))
        · exact Or.inr ((hnmem x).mpr (Or.inl ⟨hxn, hxe⟩))
  · intro s enter leave
    exact ⟨rfl, rfl, rfl, rfl, rfl, rfl, rfl, rfl, rfl, rfl, rfl⟩

/-- Witness for claim C7: the constructed scenario-1 state satisfies the
invariant, and the first pivot there (entering column 0, leaving slack 4)
swaps exactly those two indices. -/
theorem claim_C7_w :
    BasisInvariant exampleState.m (2 * exampleState.n) exampleState.basis
      exampleState.nonbasis ∧
    (BasisInvariant 2 4 (update_basis [4, 5] [0, 1, 2, 3] 0 4).1
        (update_basis [4, 5] [0, 1, 2, 3] 0 4).2 ∧
      (∀ x, x ∈ (update_basis [4, 5] [0, 1, 2, 3] 0 4).1 ↔
        (x ∈ [4, 5] ∧ x ≠ 4) ∨ x = 0) ∧
      (∀ x, x ∈ (update_basis [4, 5] [0, 1, 2, 3] 0 4).2 ↔
        (x ∈ [0, 1, 2, 3] ∧ x ≠ 0) ∨ x = 4)) :=
  ⟨claim_C7.1 [[1, -1], [1, 1]] [2, 6] [-2, -1] 50 0 exampleState (by decide),
   claim_C7.2.1 2 4 [4, 5] [0, 1, 2, 3] 0 4 (by decide) (by decide) (by decide)⟩

/-- The ratios list unfolded to its filterMap form. -/
theorem ratios_list_eq (s : Simplex) (B_inv : List (List ℚ)) (entering_var : ℕ) :
    ratios_list s B_inv entering_var =
      (List.range s.len_basis).filterMap (ratio_entry s B_inv entering_var) := rfl

/-- Claim C6: the leaving variable is chosen by the minimum-ratio test.
`get_leaving_variable` returns nothing exactly when no direction entry
`d_i = (B⁻¹A_enter)_i` is strictly positive; otherwise it returns the basis
index of a row `i` with `d_i > 0` whose ratio `(B⁻¹b)_i / d_i` is minimal
among all such rows and strictly smaller than every earlier such row's ratio
(first-encountered tie-break); and when no direction entry is positive the
solve loop returns the Unbounded result, which carries no solution and no
objective value. -/
theorem claim_C6 (s : Simplex) (B_inv : List (List ℚ)) (entering_var : ℕ) :
    (get_leaving_variable s B_inv entering_var = none ↔
      ∀ i < s.len_basis, ¬ 0 < (direction s B_inv entering_var).getD i 0) ∧
    (∀ lv r, get_leaving_variable s B_inv entering_var = some (lv, r) →
      ∃ i, i < s.len_basis ∧ 0 < (direction s B_inv entering_var).getD i 0 ∧
        lv = s.basis.getD i 0 ∧
        r = (basic_values s B_inv).getD i 0 / (direction s B_inv entering_var).getD i 0 ∧
        (∀ k < s.len_basis, 0 < (direction s B_inv entering_var).getD k 0 →
          r ≤ (basic_values s B_inv).getD k 0 / (direction s B_inv entering_var).getD k 0) ∧
        (∀ k < i, 0 < (direction s B_inv entering_var).getD k 0 →
          r < (basic_values s B_inv).getD k 0 / (direction s B_inv entering_var).getD k 0)) ∧
    (∀ (dps fuel iteration : ℕ) (s2 : Simplex) (B2 : List (List ℚ)) (j : ℕ) (mrc : ℚ),
      get_basis_inverse s2 = some B2 →
      get_entering_variable (compute_reduced_costs s2 B2) = (some j, some mrc) →
      mrc < -(tolerance dps) →
      get_leaving_variable s2 B2 j = none →
      solveLoop dps (fuel + 1) s2 iteration = some SolveResult.unbounded) := by
  refine ⟨⟨?_, ?_⟩, ?_, ?_⟩
  · intro hnone i hi hpos
    cases hr : ratios_list s B_inv entering_var with
    | nil =>
      rw [ratios_list_eq] at hr
      have hall := List.filterMap_eq_nil_iff.mp hr
      have hfi := hall i (List.mem_range.mpr hi)
      rw [ratio_entry, if_pos hpos] at hfi
      exact Option.noConfusion hfi
    | cons x xs =>
      simp only [get_leaving_variable, hr] at hnone
      exact Option.noConfusion hnone
  · intro hall
    have hnil : ratios_list s B_inv entering_var = [] := by
      rw [ratios_list_eq]
      apply List.filterMap_eq_nil_iff.mpr
      intro i hi
      rw [ratio_entry, if_neg (hall i (List.mem_range.mp hi))]
    simp only [get_leaving_variable, hnil]
  · intro lv r hsome
    cases hr : ratios_list s B_inv entering_var with
    | nil =>
      simp only [get_leaving_variable, hr] at hsome
      exact Option.noConfusion hsome
    | cons x xs =>
      simp only [get_leaving_variable, hr] at hsome
      have hpm : py_min_by_snd x xs = (lv, r) := Option.some.inj hsome
      obtain ⟨k, hk, hget, hfirst⟩ := py_min_first xs x
      have hklt : k < ((List.range s.len_basis).filterMap
          (ratio_entry s B_inv entering_var)).length := by
        rw [← ratios_list_eq, hr]
        simpa using hk
      obtain ⟨i, hi_mem, hfi, hprev⟩ := filterMap_first_index
        (ratio_entry s B_inv entering_var) (List.range s.len_basis)
        (List.pairwise_lt_range _) k hklt
      have hi : i < s.len_basis := List.mem_range.mp hi_mem
      have hgd : ((List.range s.len_basis).filterMap
          (ratio_entry s B_inv entering_var)).getD k (0, 0) = (lv, r) := by
        rw [← ratios_list_eq, hr, hget, hpm]
      rw [hgd] at hfi
      by_cases hpos : 0 < (direction s B_inv entering_var).getD i 0
      case neg =>
        rw [ratio_entry, if_neg hpos] at hfi
        exact Option.noConfusion hfi
      case pos =>
        rw [ratio_entry, if_pos hpos] at hfi
        have hfi' := Option.some.inj hfi
        have hlv : s.basis.getD i 0 = lv := congrArg Prod.fst hfi'
        have hrr : (basic_values s B_inv).getD i 0 /
            (direction s B_inv entering_var).getD i 0 = r := congrArg Prod.snd hfi'
        have hr2 : r = (py_min_by_snd x xs).2 := by rw [hpm]
        refine ⟨i, hi, hpos, hlv.symm, hrr.symm, ?_, ?_⟩
        · intro k2 hk2 hpos2
          have hmem : (s.basis.getD k2 0, (basic_values s B_inv).getD k2 0 /
              (direction s B_inv entering_var).getD k2 0)
              ∈ ratios_list s B_inv entering_var := by
            rw [ratios_list_eq]
            exact List.mem_filterMap.mpr
              ⟨k2, List.mem_range.mpr hk2, by rw [ratio_entry, if_pos hpos2]⟩
          rw [hr] at hmem
          rcases List.mem_cons.mp hmem with heq | hmem'
          · calc r = (py_min_by_snd x xs).2 := hr2
              _ ≤ x.2 := (py_min_le xs x).1
              _ = _ := by rw [← heq]
          · calc r = (py_min_by_snd x xs).2 := hr2
              _ ≤ _ := (py_min_le xs x).2 _ hmem'
        · intro k2 hk2i hpos2
          have hk2 : k2 < s.len_basis := lt_trans hk2i hi
          have hfk2 : ratio_entry s B_inv entering_var k2 =
              some (s.basis.getD k2 0, (basic_values s B_inv).getD k2 0 /
                (direction s B_inv entering_var).getD k2 0) := by
            rw [ratio_entry, if_pos hpos2]
          obtain ⟨j2, hj2k, hj2eq⟩ := hprev k2 (List.mem_range.mpr hk2) hk2i _ hfk2
          rw [← ratios_list_eq, hr] at hj2eq
          calc r = (py_min_by_snd x xs).2 := hr2
            _ < ((x :: xs).getD j2 (0, 0)).2 := hfirst j2 hj2k
            _ = _ := by rw [hj2eq]
  · intro dps fuel iteration s2 B2 j mrc hBinv hev hmrc hleave
    have hstop : isOptimalStop dps (some mrc) = false := by
      simp only [isOptimalStop]
      exact decide_eq_false (not_le.mpr hmrc)
    simp [solveLoop, hBinv, hev, hstop, hleave]

unseal Rat.add Rat.sub Rat.mul Rat.inv in
/-- Witness for claim C6: in the first iteration of the scenario-1 LP
(`B⁻¹ = I`, entering column 0, `d = (1,1)`, `b̄ = (2,6)`), the selected
leaving pair is `(4, 2)`, coming from row 0 with the minimum ratio. -/
theorem claim_C6_w :
    ∃ i, i < exampleState.len_basis ∧
      0 < (direction exampleState [[1, 0], [0, 1]] 0).getD i 0 ∧
      4 = exampleState.basis.getD i 0 ∧
      (2 : ℚ) = (basic_values exampleState [[1, 0], [0, 1]]).getD i 0 /
        (direction exampleState [[1, 0], [0, 1]] 0).getD i 0 ∧
      (∀ k < exampleState.len_basis,
        0 < (direction exampleState [[1, 0], [0, 1]] 0).getD k 0 →
        (2 : ℚ) ≤ (basic_values exampleState [[1, 0], [0, 1]]).getD k 0 /
          (direction exampleState [[1, 0], [0, 1]] 0).getD k 0) ∧
      (∀ k < i, 0 < (direction exampleState [[1, 0], [0, 1]] 0).getD k 0 →
        (2 : ℚ) < (basic_values exampleState [[1, 0], [0, 1]]).getD k 0 /
          (direction exampleState [[1, 0], [0, 1]] 0).getD k 0) :=
  (claim_C6 exampleState [[1, 0], [0, 1]] 0).2.1 4 2 (by decide)

/-- Claim C10: whenever the pipeline inside `get_coefs` reaches the solver and
`solve` terminates non-optimally, `get_coefs` fails instead of returning (the
four-variable unpacking of the three-element result raises), and it returns a
coefficient vector — the solution with its leading error-bound entry dropped,
reversed — exactly on the Optimal result. -/
theorem claim_C10 (precision : ℕ) (f : ℚ → ℚ) (degree : ℕ) (a b : ℚ) (num : ℕ)
    (omega_sup omega_inf : ℚ → ℚ) (points : List ℚ) (s : Simplex) (r : SolveResult)
    (hpts : f_linspace a b num = some points)
    (hinit : (RevisedSimplex_init
        (negMat (construct_matrix degree points omega_sup omega_inf))
        (get_coefs_rhs f points) (construct_vector_c degree)
        precision precision).1 = some s)
    (hsolve : solve s precision 1000 = some r) :
    (r = SolveResult.unbounded →
      get_coefs precision f degree a b num omega_sup omega_inf = none) ∧
    (r = SolveResult.maxIterationsReached →
      get_coefs precision f degree a b num omega_sup omega_inf = none) ∧
    (∀ x obj iters, r = SolveResult.optimal x obj iters →
      get_coefs precision f degree a b num omega_sup omega_inf =
        some ((x.drop 1).reverse)) := by
  have hpair : RevisedSimplex_init
      (negMat (construct_matrix degree points omega_sup omega_inf))
      (get_coefs_rhs f points) (construct_vector_c degree)
      precision precision = (some s, precision) := by
    have h2 := RevisedSimplex_init_snd
      (negMat (construct_matrix degree points omega_sup omega_inf))
      (get_coefs_rhs f points) (construct_vector_c degree) precision precision
    exact Prod.ext hinit h2
  refine ⟨?_, ?_, ?_⟩
  · intro hru
    subst hru
    simp only [get_coefs, hpts, hpair, hsolve]
  · intro hrm
    subst hrm
    simp only [get_coefs, hpts, hpair, hsolve]
  · intro x obj iters hro
    subst hro
    simp only [get_coefs, hpts, hpair, hsolve]

unseal Rat.add Rat.sub Rat.mul Rat.inv in
/-- Witness for claim C10: with `f = 1`, degree 0, interval `[0,1]`, 2 sample
points and the zero weight functions of `src/main.py`, the LP is unbounded
(`solve` returns the three-element result) and `get_coefs` fails. -/
theorem claim_C10_w :
    get_coefs 15 (fun _ => (1 : ℚ)) 0 0 1 2 (fun _ => 0) (fun _ => 0) = none :=
  (claim_C10 15 (fun _ => (1 : ℚ)) 0 0 1 2 (fun _ => 0) (fun _ => 0) [0, 1]
    pipelineState SolveResult.unbounded (by decide) (by decide) (by decide)).1 rfl
